import Mathlib

/-!
Verification of the portbump text transformer (src/main.go).

The program's core is `bumpPortrevision`, which edits a port Makefile held in
memory as a byte buffer using three Go regular expressions:

  distversionRe  = `((?:\A|\n)\s*DISTVERSION\s*\??=.*(?:\n|\z))`
  portversionRe  = `((?:\A|\n)\s*PORTVERSION\s*\??=.*(?:\n|\z))`
  portrevisionRe = `((?:\A|\n)\s*PORTREVISION\s*\??=\s*)([^\s]+)(.*(?:\n|\z))`

This file gives a shallow embedding of that code over `List Char` (one `Char`
per byte/rune of the buffer; all bytes that matter to the patterns are ASCII).
The regexes are hand-compiled to deterministic matching functions.  This is
sound because each pattern is backtracking-free in Go's leftmost-first
semantics:

  * `\s*` followed by a literal, by `\??=`, or by `[^\s]+` is deterministic:
    taking fewer whitespace characters leaves a whitespace character in front,
    which the continuation rejects, so the maximal whitespace run is the only
    viable choice;
  * `\??` tries to consume `?` and otherwise requires `=` directly, so the
    option is resolved by looking at the next one or two characters;
  * `.*(?:\n|\z)` always succeeds on its first (greedy) attempt: `.` matches
    every character except `\n`, so the greedy run stops exactly at the first
    newline (consumed by the `\n` branch) or at the end of text (the `\z`
    branch), and no backtracking into the preceding `[^\s]+` token occurs;
  * `(?:\A|\n)`: at offset 0 the `\A` branch and (when the first character is
    a newline) the `\n` branch consume the same bytes up to the literal,
    because `\s` includes `\n`; at any later offset only the `\n` branch can
    start a match.  A leftmost match is therefore found by trying the core at
    offset 0 and otherwise at each newline, left to right.

Go's `Regexp.ReplaceAll` substitutes every non-overlapping match (continuing
the search right after each match, where `\A` can no longer fire; all our
matches are non-empty since they contain the field-name literal), and expands
`$name` / `${name}` references in the replacement template against each
match's capture groups.  `strconv.ParseUint(_, 10, 64)` and
`strconv.FormatUint(_+1, 10)` are modelled exactly, including Go's
error-classification order (a range error can be reported before a later
non-digit byte is seen) and the wrap-around of `uint64` addition.

`processPort` (file handling) is modelled on the file's contents: read whole
file, transform, seek to offset 0 and write, with no truncation, so the new
contents are the transformed buffer followed by whatever stale bytes of the
old contents extend past it.
-/

/-- RE2's `\s` character class: `[\t\n\f\r ]`. -/
def wsp (c : Char) : Bool :=
  c == ' ' || c == '\t' || c == '\n' || c == Char.ofNat 12 || c == '\r'

/-- Negation of `wsp`, i.e. RE2's `[^\s]`. -/
def notWsp (c : Char) : Bool := !wsp c

/-- RE2's `.` (without the `s` flag): any character except newline. -/
def notNL (c : Char) : Bool := c != '\n'

def nameREV : List Char := ['P', 'O', 'R', 'T', 'R', 'E', 'V', 'I', 'S', 'I', 'O', 'N']

def nameDIST : List Char := ['D', 'I', 'S', 'T', 'V', 'E', 'R', 'S', 'I', 'O', 'N']

def namePVER : List Char := ['P', 'O', 'R', 'T', 'V', 'E', 'R', 'S', 'I', 'O', 'N']

/-- Strip a literal from the front of a list, as a regex literal match. -/
def stripLit : List Char → List Char → Option (List Char)
  | [], s => some s
  | _ :: _, [] => none
  | c :: cs, d :: ds => if c = d then stripLit cs ds else none

/-- A match of `portrevisionRe`: the buffer is `pre ++ g1 ++ g2 ++ g3 ++ rest`
with `g1`, `g2`, `g3` the three capture groups. -/
structure RevM where
  pre : List Char
  g1 : List Char
  g2 : List Char
  g3 : List Char
  rest : List Char
  deriving DecidableEq, Repr

/-- A match of `distversionRe`/`portversionRe`: the buffer is
`pre ++ g1 ++ rest` with `g1` the (single) capture group, which spans the
whole match. -/
structure VerM where
  pre : List Char
  g1 : List Char
  rest : List Char
  deriving DecidableEq, Repr

/-- Match `\s*NAME\s*\??=` at the start of `s`; returns the consumed
characters and the remainder. -/
def matchAssign (name s : List Char) : Option (List Char × List Char) :=
  match stripLit name (s.dropWhile wsp) with
  | none => none
  | some r2 =>
    match r2.dropWhile wsp with
    | '?' :: '=' :: r4 => some (s.takeWhile wsp ++ name ++ r2.takeWhile wsp ++ ['?', '='], r4)
    | '=' :: r4 => some (s.takeWhile wsp ++ name ++ r2.takeWhile wsp ++ ['='], r4)
    | _ => none

/-- Match the body of `portrevisionRe` (everything but the `(?:\A|\n)`
anchor) at the start of `s`: `\s*PORTREVISION\s*\??=\s*` into group 1,
`[^\s]+` into group 2, `.*(?:\n|\z)` into group 3.  Returns the three group
remainders `(g1, g2, g3, rest)` where `g1` here excludes the anchor. -/
def matchRevCore (s : List Char) : Option (List Char × List Char × List Char × List Char) :=
  match matchAssign nameREV s with
  | none => none
  | some (h, r) =>
    match (r.dropWhile wsp).takeWhile notWsp with
    | [] => none
    | c :: tok =>
      match ((r.dropWhile wsp).dropWhile notWsp).dropWhile notNL with
      | '\n' :: r4 =>
        some (h ++ r.takeWhile wsp, c :: tok,
          ((r.dropWhile wsp).dropWhile notWsp).takeWhile notNL ++ ['\n'], r4)
      | _ :: _ => none
      | [] =>
        some (h ++ r.takeWhile wsp, c :: tok,
          ((r.dropWhile wsp).dropWhile notWsp).takeWhile notNL, [])

/-- Scan for the leftmost `portrevisionRe` match whose `(?:\A|\n)` anchor is
satisfied by a `\n` of the buffer (the anchor newline is part of group 1). -/
def findRevNL : List Char → Option RevM
  | [] => none
  | c :: s =>
    if c = '\n' then
      match matchRevCore s with
      | some (g1, g2, g3, r) => some ⟨[], '\n' :: g1, g2, g3, r⟩
      | none =>
        match findRevNL s with
        | none => none
        | some m => some ⟨c :: m.pre, m.g1, m.g2, m.g3, m.rest⟩
    else
      match findRevNL s with
      | none => none
      | some m => some ⟨c :: m.pre, m.g1, m.g2, m.g3, m.rest⟩

/-- The leftmost `portrevisionRe` match of the buffer
(`portrevisionRe.FindSubmatch`): try the `\A` anchor at offset 0, then every
newline anchor left to right. -/
def findRev (buf : List Char) : Option RevM :=
  match matchRevCore buf with
  | some (g1, g2, g3, r) => some ⟨[], g1, g2, g3, r⟩
  | none => findRevNL buf

/-- Match the body of `distversionRe`/`portversionRe` (everything but the
anchor) at the start of `s`: `\s*NAME\s*\??=.*(?:\n|\z)`.  Returns the group
(sans anchor) and the remainder. -/
def matchVerCore (name s : List Char) : Option (List Char × List Char) :=
  match matchAssign name s with
  | none => none
  | some (h, r) =>
    match r.dropWhile notNL with
    | '\n' :: r4 => some (h ++ r.takeWhile notNL ++ ['\n'], r4)
    | _ :: _ => none
    | [] => some (h ++ r.takeWhile notNL, [])

/-- Scan for the leftmost version-field match anchored at a `\n`. -/
def findVerNL (name : List Char) : List Char → Option VerM
  | [] => none
  | c :: s =>
    if c = '\n' then
      match matchVerCore name s with
      | some (g1, r) => some ⟨[], '\n' :: g1, r⟩
      | none =>
        match findVerNL name s with
        | none => none
        | some m => some ⟨c :: m.pre, m.g1, m.rest⟩
    else
      match findVerNL name s with
      | none => none
      | some m => some ⟨c :: m.pre, m.g1, m.rest⟩

/-- The leftmost `distversionRe`/`portversionRe` match of the buffer. -/
def findVer (name buf : List Char) : Option VerM :=
  match matchVerCore name buf with
  | some (g1, r) => some ⟨[], g1, r⟩
  | none => findVerNL name buf

/-- A character usable in a `$name` reference in a replacement template
(Go: letters, digits, underscore; modelled for ASCII, which covers every
template `bumpPortrevision` builds). -/
def nameChar (c : Char) : Bool := c.isAlpha || c.isDigit || c == '_'

/-- The digit-parsing loop of Go's `regexp.extract`: a capture name counts as
an index only if it is all digits, and indices are capped below `1e8`. -/
def digitsVal : List Char → Nat → Option Nat
  | [], n => some n
  | c :: cs, n =>
    if c.isDigit = false then none
    else if 100000000 ≤ n then none
    else digitsVal cs (n * 10 + (c.toNat - 48))

/-- Classify a capture name: `some n` for a numeric group index, `none` for a
named group (our regexes declare no names, so a named reference expands to
nothing).  Go rejects leading zeros, so `$01` is a (missing) name. -/
def groupRef (name : List Char) : Option Nat :=
  match digitsVal name 0 with
  | none => none
  | some n =>
    match name with
    | '0' :: _ :: _ => none
    | _ => some n

/-- Go's `regexp.extract`: parse a `name` or `{name}` after a `$`.  Returns
the reference and the rest of the template, or `none` if malformed (then the
`$` is literal). -/
def extractRef (s : List Char) : Option (Option Nat × List Char) :=
  match s with
  | '{' :: r =>
    match r.dropWhile nameChar with
    | '}' :: r2 =>
      if r.takeWhile nameChar = [] then none
      else some (groupRef (r.takeWhile nameChar), r2)
    | _ => none
  | _ =>
    if s.takeWhile nameChar = [] then none
    else some (groupRef (s.takeWhile nameChar), s.dropWhile nameChar)

/-- Go's `Regexp.expand` applied to a template and the capture groups of one
match (`groups.get 0` is the whole match).  `$$` is a literal `$`; a reference
to a group that does not exist expands to nothing.  The fuel argument only
makes the recursion structural; `expand` below supplies `template.length`,
which is sufficient since every step consumes at least one character. -/
def expandF (groups : List (List Char)) : Nat → List Char → List Char
  | _, [] => []
  | 0, t => t
  | fuel + 1, c :: r =>
    if c = '$' then
      match r with
      | '$' :: r2 => '$' :: expandF groups fuel r2
      | _ =>
        match extractRef r with
        | none => '$' :: expandF groups fuel r
        | some (some n, r2) => groups.getD n [] ++ expandF groups fuel r2
        | some (none, r2) => expandF groups fuel r2
    else c :: expandF groups fuel r

/-- Expand a replacement template against one match's capture groups. -/
def expand (groups : List (List Char)) (tmpl : List Char) : List Char :=
  expandF groups tmpl.length tmpl

/-- Capture groups of a `portrevisionRe` match, 0 = whole match. -/
def revGroups (m : RevM) : List (List Char) :=
  [m.g1 ++ m.g2 ++ m.g3, m.g1, m.g2, m.g3]

/-- Capture groups of a version-field match, 0 = whole match = group 1. -/
def verGroups (m : VerM) : List (List Char) := [m.g1, m.g1]

/-- Continuation of `portrevisionRe.ReplaceAll` after the first match: Go
resumes the search right after each match, where the `\A` branch of the
anchor can no longer fire, so only newline-anchored matches are replaced.
Matches are non-empty (they contain `PORTREVISION`), so the fuel
`buf.length` supplied by `revRepAll` is sufficient. -/
def revRepCont (tmpl : List Char) : Nat → List Char → List Char
  | 0, buf => buf
  | fuel + 1, buf =>
    match findRevNL buf with
    | none => buf
    | some m => m.pre ++ expand (revGroups m) tmpl ++ revRepCont tmpl fuel m.rest

/-- `portrevisionRe.ReplaceAll buf tmpl`: replace every non-overlapping match
by the template expanded against that match's groups. -/
def revRepAll (tmpl buf : List Char) : List Char :=
  match findRev buf with
  | none => buf
  | some m => m.pre ++ expand (revGroups m) tmpl ++ revRepCont tmpl buf.length m.rest

/-- Continuation of `ReplaceAll` for the version-field patterns. -/
def verRepCont (name tmpl : List Char) : Nat → List Char → List Char
  | 0, buf => buf
  | fuel + 1, buf =>
    match findVerNL name buf with
    | none => buf
    | some m => m.pre ++ expand (verGroups m) tmpl ++ verRepCont name tmpl fuel m.rest

/-- `distversionRe.ReplaceAll` / `portversionRe.ReplaceAll`. -/
def verRepAll (name tmpl buf : List Char) : List Char :=
  match findVer name buf with
  | none => buf
  | some m => m.pre ++ expand (verGroups m) tmpl ++ verRepCont name tmpl buf.length m.rest

/-- Error classification of `strconv.ParseUint`: `invalid` is
`strconv.ErrSyntax`, `outOfRange` is `strconv.ErrRange`. -/
inductive ParseErr where
  | invalid
  | outOfRange
  deriving DecidableEq, Repr

/-- Largest `uint64` value. -/
def maxUint64 : Nat := 18446744073709551615

/-- 2^64, the modulus of `uint64` arithmetic. -/
def uint64Mod : Nat := 18446744073709551616

/-- `strconv.ParseUint`'s per-byte cutoff for base 10, 64 bits:
`maxUint64/10 + 1`.  Once the accumulator reaches it, Go reports a range
error before even looking at the remaining bytes. -/
def cutoff10 : Nat := 1844674407370955162

/-- The digit loop of `strconv.ParseUint(s, 10, 64)`, checks in Go's order:
classify the byte (non-digit → syntax error), then the cutoff test on the
accumulator, then the overflow test on the new value. -/
def parseUintCore : List Char → Nat → Except ParseErr Nat
  | [], n => .ok n
  | c :: cs, n =>
    if c.isDigit = false then .error .invalid
    else if cutoff10 ≤ n then .error .outOfRange
    else if maxUint64 < n * 10 + (c.toNat - 48) then .error .outOfRange
    else parseUintCore cs (n * 10 + (c.toNat - 48))

/-- `strconv.ParseUint(s, 10, 64)` (empty input is a syntax error). -/
def parseUint (s : List Char) : Except ParseErr Nat :=
  match s with
  | [] => .error .invalid
  | _ :: _ => parseUintCore s 0

/-- Digit-emitting loop of `strconv.FormatUint(n, 10)`; fuel-structural, and
`n + 1` fuel always suffices since `n` shrinks by a factor of 10 each step. -/
def toDecCore : Nat → Nat → List Char → List Char
  | 0, _, acc => acc
  | fuel + 1, n, acc =>
    if n / 10 = 0 then Char.ofNat (48 + n % 10) :: acc
    else toDecCore fuel (n / 10) (Char.ofNat (48 + n % 10) :: acc)

/-- `strconv.FormatUint(n, 10)`: base-10 representation, most significant
digit first. -/
def toDecimal (n : Nat) : List Char := toDecCore (n + 1) n []

/-- The two errors `bumpPortrevision` can return: `notNumeric` is
`errors.New("not a numeric PORTREVISION")` (from `strconv.ErrSyntax`);
`outOfRange` is the propagated `strconv.ErrRange` number error. -/
inductive BumpErr where
  | notNumeric
  | outOfRange
  deriving DecidableEq, Repr

/-- The replacement template `rev1` of `bumpPortrevision`. -/
def rev1Tmpl : List Char :=
  ['$', '{', '1', '}'] ++ nameREV ++ ['=', '\t', '1', '\n']

/-- `bumpPortrevision` from src/main.go: if `portrevisionRe` matches, parse
the value token as a base-10 `uint64` (syntax error → "not a numeric
PORTREVISION"; range error propagated) and replace all matches with
group 1 ++ the incremented value (`uint64` addition wraps) ++ group 3;
otherwise, if a version field matches (`DISTVERSION` first, then
`PORTVERSION`), replace all its matches with `${1}PORTREVISION=\t1\n`;
otherwise return the buffer unchanged. -/
def bumpPortrevision (buf : List Char) : Except BumpErr (List Char) :=
  match findRev buf with
  | some m =>
    match parseUint m.g2 with
    | .error .invalid => .error .notNumeric
    | .error .outOfRange => .error .outOfRange
    | .ok rev =>
      .ok (revRepAll (m.g1 ++ toDecimal ((rev + 1) % uint64Mod) ++ m.g3) buf)
  | none =>
    if (findVer nameDIST buf).isSome then .ok (verRepAll nameDIST rev1Tmpl buf)
    else if (findVer namePVER buf).isSome then .ok (verRepAll namePVER rev1Tmpl buf)
    else .ok buf

/-- `processPort` from src/main.go, modelled on the file's contents: read the
whole file, transform it, `Seek(0, 0)` and `Write` the result.  There is no
truncation, so when the new contents are shorter the old tail survives.  On a
transform error nothing is written. -/
def processPort (file : List Char) : Except BumpErr Unit × List Char :=
  match bumpPortrevision file with
  | .error e => (.error e, file)
  | .ok buf => (.ok (), buf ++ file.drop buf.length)

/-- The segment of a line that precedes a given point: everything after the
last `\n` of `l` (or all of `l` if it has no newline). -/
def afterLastNL (l : List Char) : List Char :=
  ((l.reverse).takeWhile notNL).reverse

/-- Every occurrence of `name` in `buf` is preceded, on its own line, by at
least one non-whitespace character (e.g. a comment marker).  Such an
occurrence can never satisfy the `(?:\A|\n)\s*` anchor of the patterns. -/
def lineAnchoredFree (name buf : List Char) : Prop :=
  ∀ i, i < buf.length → (buf.drop i).take name.length = name →
    ∃ c ∈ afterLastNL (buf.take i), wsp c = false

instance (name buf : List Char) : Decidable (lineAnchoredFree name buf) := by
  unfold lineAnchoredFree
  infer_instance

/-- All characters of a list are regex whitespace (`\s`). -/
def allWsp (l : List Char) : Prop := ∀ c ∈ l, wsp c = true

/-- Structure of capture group 1 of a `portrevisionRe` match whose
`(?:\A|\n)` anchor consumed `anc` (either `[]` or `['\n']`):
`\s* PORTREVISION \s* \??= \s*`. -/
def revG1Shape (anc g1 : List Char) : Prop :=
  ∃ sp1 sp2 t sp3, g1 = anc ++ sp1 ++ nameREV ++ sp2 ++ t ++ sp3 ∧
    allWsp sp1 ∧ allWsp sp2 ∧ (t = ['='] ∨ t = ['?', '=']) ∧ allWsp sp3

/-- Structure of the capture group of a version-field match: leading anchor,
whitespace, then the field name. -/
def verG1Shape (name anc g1 : List Char) : Prop :=
  ∃ sp1 t, g1 = anc ++ sp1 ++ name ++ t ∧ allWsp sp1

/-! ### Decomposition of a match back into the buffer -/

theorem stripLit_eq {name s r : List Char} (h : stripLit name s = some r) : s = name ++ r := by
  induction name generalizing s with
  | nil => simp only [stripLit, Option.some_inj] at h; simp [h]
  | cons c cs ih =>
    cases s with
    | nil => simp [stripLit] at h
    | cons d ds =>
      simp only [stripLit] at h
      split at h
      · next hcd => subst hcd; simpa using ih h
      · exact absurd h (by simp)

theorem matchAssign_eq {name s hd r : List Char} (hm : matchAssign name s = some (hd, r)) :
    s = hd ++ r ∧ ∃ sp1 sp2 t, hd = sp1 ++ name ++ sp2 ++ t ∧ allWsp sp1 ∧ allWsp sp2 ∧
      (t = ['='] ∨ t = ['?', '=']) := by
  unfold matchAssign at hm
  split at hm
  · exact absurd hm (by simp)
  · next r2 hstrip =>
    have hs2 : s.dropWhile wsp = name ++ r2 := stripLit_eq hstrip
    split at hm
    · next r4 hdw =>
      injection hm with hm1
      injection hm1 with hhd hr
      subst hhd; subst hr
      constructor
      · conv_lhs => rw [← List.takeWhile_append_dropWhile wsp s, hs2,
          ← List.takeWhile_append_dropWhile wsp r2, hdw]
        simp
      · exact ⟨s.takeWhile wsp, r2.takeWhile wsp, ['?', '='], by simp,
          fun c hc => List.mem_takeWhile_imp hc, fun c hc => List.mem_takeWhile_imp hc,
          Or.inr rfl⟩
    · next r4 hdw =>
      injection hm with hm1
      injection hm1 with hhd hr
      subst hhd; subst hr
      constructor
      · conv_lhs => rw [← List.takeWhile_append_dropWhile wsp s, hs2,
          ← List.takeWhile_append_dropWhile wsp r2, hdw]
        simp
      · exact ⟨s.takeWhile wsp, r2.takeWhile wsp, ['='], by simp,
          fun c hc => List.mem_takeWhile_imp hc, fun c hc => List.mem_takeWhile_imp hc,
          Or.inl rfl⟩
    · exact absurd hm (by simp)

theorem matchRevCore_eq {s g1 g2 g3 r : List Char}
    (hm : matchRevCore s = some (g1, g2, g3, r)) :
    s = g1 ++ g2 ++ g3 ++ r ∧ revG1Shape [] g1 := by
  unfold matchRevCore at hm
  split at hm
  · exact absurd hm (by simp)
  · next hd rr hma =>
    obtain ⟨hs, sp1, sp2, t, hhd, hsp1, hsp2, ht⟩ := matchAssign_eq hma
    split at hm
    · exact absurd hm (by simp)
    · next c tok htok =>
      split at hm
      · next r4 hdnl =>
        simp only [Option.some_inj, Prod.mk.injEq] at hm
        obtain ⟨h1, h2, h3, h4⟩ := hm
        subst h1; subst h2; subst h3; subst h4
        refine ⟨?_, sp1, sp2, t, rr.takeWhile wsp, by simp [hhd], hsp1, hsp2, ht,
          fun c hc => List.mem_takeWhile_imp hc⟩
        conv_lhs => rw [hs, ← List.takeWhile_append_dropWhile wsp rr,
          ← List.takeWhile_append_dropWhile notWsp (rr.dropWhile wsp), htok,
          ← List.takeWhile_append_dropWhile notNL ((rr.dropWhile wsp).dropWhile notWsp), hdnl]
        simp
      · exact absurd hm (by simp)
      · next hdnl =>
        simp only [Option.some_inj, Prod.mk.injEq] at hm
        obtain ⟨h1, h2, h3, h4⟩ := hm
        subst h1; subst h2; subst h3; subst h4
        refine ⟨?_, sp1, sp2, t, rr.takeWhile wsp, by simp [hhd], hsp1, hsp2, ht,
          fun c hc => List.mem_takeWhile_imp hc⟩
        conv_lhs => rw [hs, ← List.takeWhile_append_dropWhile wsp rr,
          ← List.takeWhile_append_dropWhile notWsp (rr.dropWhile wsp), htok,
          ← List.takeWhile_append_dropWhile notNL ((rr.dropWhile wsp).dropWhile notWsp), hdnl]
        simp

theorem matchVerCore_eq {name s g1 r : List Char}
    (hm : matchVerCore name s = some (g1, r)) :
    s = g1 ++ r ∧ verG1Shape name [] g1 := by
  unfold matchVerCore at hm
  split at hm
  · exact absurd hm (by simp)
  · next hd rr hma =>
    obtain ⟨hs, sp1, sp2, t, hhd, hsp1, hsp2, ht⟩ := matchAssign_eq hma
    split at hm
    · next r4 hdnl =>
      simp only [Option.some_inj, Prod.mk.injEq] at hm
      obtain ⟨h1, h2⟩ := hm
      subst h1; subst h2
      refine ⟨?_, sp1, sp2 ++ t ++ (rr.takeWhile notNL ++ ['\n']), by simp [hhd], hsp1⟩
      conv_lhs => rw [hs, ← List.takeWhile_append_dropWhile notNL rr, hdnl]
      simp
    · exact absurd hm (by simp)
    · next hdnl =>
      simp only [Option.some_inj, Prod.mk.injEq] at hm
      obtain ⟨h1, h2⟩ := hm
      subst h1; subst h2
      refine ⟨?_, sp1, sp2 ++ t ++ rr.takeWhile notNL, by simp [hhd], hsp1⟩
      conv_lhs => rw [hs, ← List.takeWhile_append_dropWhile notNL rr, hdnl]
      simp
theorem findRevNL_decomp {buf : List Char} {m : RevM} (h : findRevNL buf = some m) :
    buf = m.pre ++ m.g1 ++ m.g2 ++ m.g3 ++ m.rest ∧ revG1Shape ['\n'] m.g1 := by
  induction buf generalizing m with
  | nil => simp [findRevNL] at h
  | cons c s ih =>
    simp only [findRevNL] at h
    split at h
    · next hc =>
      subst hc
      split at h
      · next g1 g2 g3 r hcore =>
        injection h with h1
        subst h1
        obtain ⟨hseq, sp1, sp2, t, sp3, hg1, hw1, hw2, hto, hw3⟩ := matchRevCore_eq hcore
        refine ⟨by simp [hseq], sp1, sp2, t, sp3, by simp [hg1], hw1, hw2, hto, hw3⟩
      · split at h
        · exact absurd h (by simp)
        · next m' hrec =>
          injection h with h1
          subst h1
          obtain ⟨hseq, hshape⟩ := ih hrec
          exact ⟨by simp [hseq], hshape⟩
    · next hc =>
      split at h
      · exact absurd h (by simp)
      · next m' hrec =>
        injection h with h1
        subst h1
        obtain ⟨hseq, hshape⟩ := ih hrec
        exact ⟨by simp [hseq], hshape⟩

theorem findRev_decomp {buf : List Char} {m : RevM} (h : findRev buf = some m) :
    buf = m.pre ++ m.g1 ++ m.g2 ++ m.g3 ++ m.rest ∧
      ((m.pre = [] ∧ revG1Shape [] m.g1) ∨ revG1Shape ['\n'] m.g1) := by
  unfold findRev at h
  split at h
  · next g1 g2 g3 r hcore =>
    injection h with h1
    subst h1
    obtain ⟨hseq, hshape⟩ := matchRevCore_eq hcore
    exact ⟨by simp [hseq], Or.inl ⟨rfl, hshape⟩⟩
  · obtain ⟨hseq, hshape⟩ := findRevNL_decomp h
    exact ⟨hseq, Or.inr hshape⟩

theorem findVerNL_decomp {name buf : List Char} {m : VerM} (h : findVerNL name buf = some m) :
    buf = m.pre ++ m.g1 ++ m.rest ∧ verG1Shape name ['\n'] m.g1 := by
  induction buf generalizing m with
  | nil => simp [findVerNL] at h
  | cons c s ih =>
    simp only [findVerNL] at h
    split at h
    · next hc =>
      subst hc
      split at h
      · next g1 r hcore =>
        injection h with h1
        subst h1
        obtain ⟨hseq, sp1, t, hg1, hw1⟩ := matchVerCore_eq hcore
        refine ⟨by simp [hseq], sp1, t, by simp [hg1], hw1⟩
      · split at h
        · exact absurd h (by simp)
        · next m' hrec =>
          injection h with h1
          subst h1
          obtain ⟨hseq, hshape⟩ := ih hrec
          exact ⟨by simp [hseq], hshape⟩
    · next hc =>
      split at h
      · exact absurd h (by simp)
      · next m' hrec =>
        injection h with h1
        subst h1
        obtain ⟨hseq, hshape⟩ := ih hrec
        exact ⟨by simp [hseq], hshape⟩

theorem findVer_decomp {name buf : List Char} {m : VerM} (h : findVer name buf = some m) :
    buf = m.pre ++ m.g1 ++ m.rest ∧
      ((m.pre = [] ∧ verG1Shape name [] m.g1) ∨ verG1Shape name ['\n'] m.g1) := by
  unfold findVer at h
  split at h
  · next g1 r hcore =>
    injection h with h1
    subst h1
    obtain ⟨hseq, hshape⟩ := matchVerCore_eq hcore
    exact ⟨by simp [hseq], Or.inl ⟨rfl, hshape⟩⟩
  · obtain ⟨hseq, hshape⟩ := findVerNL_decomp h
    exact ⟨hseq, Or.inr hshape⟩
theorem findRevNL_append_noNL {a b : List Char} (ha : ∀ c ∈ a, c ≠ '\n') :
    findRevNL (a ++ b) =
      (findRevNL b).map fun m => ⟨a ++ m.pre, m.g1, m.g2, m.g3, m.rest⟩ := by
  induction a with
  | nil =>
    cases hfb : findRevNL b with
    | none => simp [hfb]
    | some m => cases m; simp [hfb]
  | cons c a ih =>
    have hc : ¬(c = '\n') := ha c (List.mem_cons_self c a)
    rw [List.cons_append]
    simp only [findRevNL, if_neg hc]
    rw [ih (fun x hx => ha x (List.mem_cons_of_mem c hx))]
    cases hfb : findRevNL b with
    | none => rfl
    | some m => simp

theorem findVerNL_append_noNL {name a b : List Char} (ha : ∀ c ∈ a, c ≠ '\n') :
    findVerNL name (a ++ b) =
      (findVerNL name b).map fun m => ⟨a ++ m.pre, m.g1, m.rest⟩ := by
  induction a with
  | nil =>
    cases hfb : findVerNL name b with
    | none => simp [hfb]
    | some m => cases m; simp [hfb]
  | cons c a ih =>
    have hc : ¬(c = '\n') := ha c (List.mem_cons_self c a)
    rw [List.cons_append]
    simp only [findVerNL, if_neg hc]
    rw [ih (fun x hx => ha x (List.mem_cons_of_mem c hx))]
    cases hfb : findVerNL name b with
    | none => rfl
    | some m => simp

theorem revRepCont_none {tmpl b : List Char} {fuel : Nat} (h : findRevNL b = none) :
    revRepCont tmpl fuel b = b := by
  cases fuel with
  | zero => rfl
  | succ n => simp [revRepCont, h]

theorem verRepCont_none {name tmpl b : List Char} {fuel : Nat} (h : findVerNL name b = none) :
    verRepCont name tmpl fuel b = b := by
  cases fuel with
  | zero => rfl
  | succ n => simp [verRepCont, h]

/-- `ReplaceAll` when the buffer holds exactly one match. -/
theorem revRepAll_single {tmpl buf : List Char} {m : RevM} (h : findRev buf = some m)
    (hrest : findRevNL m.rest = none) :
    revRepAll tmpl buf = m.pre ++ expand (revGroups m) tmpl ++ m.rest := by
  simp [revRepAll, h, revRepCont_none hrest]

/-- `ReplaceAll` for a version pattern when the buffer holds exactly one
match. -/
theorem verRepAll_single {name tmpl buf : List Char} {m : VerM}
    (h : findVer name buf = some m) (hrest : findVerNL name m.rest = none) :
    verRepAll name tmpl buf = m.pre ++ expand (verGroups m) tmpl ++ m.rest := by
  simp [verRepAll, h, verRepCont_none hrest]

/-- A template without `$` expands to itself. -/
theorem expandF_no_dollar {groups : List (List Char)} {fuel : Nat} {t : List Char}
    (h : '$' ∉ t) : expandF groups fuel t = t := by
  induction fuel generalizing t with
  | zero => cases t <;> rfl
  | succ n ih =>
    cases t with
    | nil => rfl
    | cons c r =>
      have hc : ¬(c = '$') := fun hcc => h (hcc ▸ List.mem_cons_self c r)
      simp only [expandF, if_neg hc]
      exact congrArg (c :: ·) (ih fun hr => h (List.mem_cons_of_mem c hr))

theorem expand_no_dollar {groups : List (List Char)} {t : List Char} (h : '$' ∉ t) :
    expand groups t = t := expandF_no_dollar h

/-- The insertion template `${1}PORTREVISION=\t1\n` expands to the whole
matched version line followed by the fresh revision line. -/
theorem expand_rev1Tmpl (m : VerM) :
    expand (verGroups m) rev1Tmpl = m.g1 ++ (nameREV ++ ['=', '\t', '1', '\n']) := rfl
theorem digitChar_isDigit {k : Nat} (hk : k < 10) : (Char.ofNat (48 + k)).isDigit = true := by
  interval_cases k <;> decide

theorem toDecCore_digits {fuel n : Nat} {acc : List Char}
    (hacc : ∀ c ∈ acc, c.isDigit = true) : ∀ c ∈ toDecCore fuel n acc, c.isDigit = true := by
  induction fuel generalizing n acc with
  | zero => exact hacc
  | succ f ih =>
    have hstep : ∀ c ∈ Char.ofNat (48 + n % 10) :: acc, c.isDigit = true := by
      intro c hc
      rcases List.mem_cons.mp hc with h | h
      · subst h; exact digitChar_isDigit (Nat.mod_lt _ (by norm_num))
      · exact hacc c h
    simp only [toDecCore]
    split
    · exact hstep
    · exact ih hstep

theorem toDecimal_digits (n : Nat) : ∀ c ∈ toDecimal n, c.isDigit = true :=
  toDecCore_digits (by simp)

theorem toDecimal_no_dollar (n : Nat) : '$' ∉ toDecimal n :=
  fun h => absurd (toDecimal_digits n '$' h) (by decide)

theorem allWsp_no_dollar {l : List Char} (h : allWsp l) : '$' ∉ l :=
  fun hm => absurd (h '$' hm) (by decide)

theorem revG1Shape_no_dollar {anc g1 : List Char} (hanc : anc = [] ∨ anc = ['\n'])
    (h : revG1Shape anc g1) : '$' ∉ g1 := by
  obtain ⟨sp1, sp2, t, sp3, hg1, hw1, hw2, hto, hw3⟩ := h
  subst hg1
  intro hm
  simp only [List.mem_append] at hm
  rcases hm with ((((hm | hm) | hm) | hm) | hm) | hm
  · rcases hanc with h | h <;> subst h <;> simp at hm
  · exact allWsp_no_dollar hw1 hm
  · simp [nameREV] at hm
  · exact allWsp_no_dollar hw2 hm
  · rcases hto with h | h <;> subst h <;> simp at hm
  · exact allWsp_no_dollar hw3 hm
/-- C1 (amended). -/
theorem bump_increments_unique_revision {buf : List Char} {m : RevM} {v : Nat}
    (hf : findRev buf = some m) (hv : parseUint m.g2 = .ok v) (hlt : v < maxUint64)
    (hd : '$' ∉ m.g3) (hone : findRevNL m.rest = none) :
    buf = m.pre ++ m.g1 ++ m.g2 ++ m.g3 ++ m.rest ∧
      bumpPortrevision buf = .ok (m.pre ++ m.g1 ++ toDecimal (v + 1) ++ m.g3 ++ m.rest) := by
  obtain ⟨hseq, hshape⟩ := findRev_decomp hf
  refine ⟨hseq, ?_⟩
  have hg1 : '$' ∉ m.g1 := by
    rcases hshape with ⟨_, hs⟩ | hs
    · exact revG1Shape_no_dollar (Or.inl rfl) hs
    · exact revG1Shape_no_dollar (Or.inr rfl) hs
  have hmod : (v + 1) % uint64Mod = v + 1 := by
    apply Nat.mod_eq_of_lt
    unfold maxUint64 at hlt
    unfold uint64Mod
    omega
  have htm : '$' ∉ m.g1 ++ toDecimal ((v + 1) % uint64Mod) ++ m.g3 := by
    rw [hmod]
    intro hm
    simp only [List.mem_append] at hm
    rcases hm with (hm | hm) | hm
    · exact hg1 hm
    · exact toDecimal_no_dollar _ hm
    · exact hd hm
  simp only [bumpPortrevision, hf, hv]
  rw [revRepAll_single hf hone, expand_no_dollar htm, hmod]
  simp

theorem bump_increments_unique_revision_witness :
    "PORTREVISION=\t3\n".toList =
        [] ++ "PORTREVISION=\t".toList ++ ['3'] ++ ['\n'] ++ [] ∧
      bumpPortrevision ("PORTREVISION=\t3\n".toList) =
        .ok ([] ++ "PORTREVISION=\t".toList ++ toDecimal (3 + 1) ++ ['\n'] ++ []) :=
  @bump_increments_unique_revision ("PORTREVISION=\t3\n".toList)
    ⟨[], "PORTREVISION=\t".toList, ['3'], ['\n'], []⟩ 3 rfl rfl (by decide) (by decide) rfl

/-- C1 counterexample. -/
theorem bump_dollar_suffix_counterexample :
    bumpPortrevision ("PORTREVISION=3 $2\n".toList) = .ok ("PORTREVISION=4 3\n".toList) ∧
      ("PORTREVISION=4 3\n".toList : List Char) ≠ "PORTREVISION=4 $2\n".toList :=
  ⟨rfl, by decide⟩
/-- C2. -/
theorem bump_wraps_at_max_uint64 :
    bumpPortrevision ("PORTREVISION=\t18446744073709551615\n".toList) =
      .ok ("PORTREVISION=\t0\n".toList) := rfl

theorem bump_range_error_above_max :
    bumpPortrevision ("PORTREVISION=\t18446744073709551616\n".toList) =
      .error .outOfRange := rfl

/-- C5 counterexample. -/
theorem bump_nonnumeric_range_counterexample :
    bumpPortrevision ("PORTREVISION=\t99999999999999999999x\n".toList) =
        .error .outOfRange ∧ BumpErr.outOfRange ≠ BumpErr.notNumeric :=
  ⟨rfl, by decide⟩

/-- C5 (amended). -/
theorem bump_syntax_error_no_write {buf : List Char} {m : RevM}
    (hf : findRev buf = some m) (hs : parseUint m.g2 = .error .invalid) :
    bumpPortrevision buf = .error .notNumeric ∧
      processPort buf = (.error .notNumeric, buf) := by
  have hb : bumpPortrevision buf = .error .notNumeric := by
    simp only [bumpPortrevision, hf, hs]
  exact ⟨hb, by simp only [processPort, hb]⟩

theorem bump_syntax_error_no_write_witness :
    bumpPortrevision ("PORTREVISION=\tabc\n".toList) = .error .notNumeric ∧
      processPort ("PORTREVISION=\tabc\n".toList) =
        (.error .notNumeric, "PORTREVISION=\tabc\n".toList) :=
  @bump_syntax_error_no_write ("PORTREVISION=\tabc\n".toList)
    ⟨[], "PORTREVISION=\t".toList, "abc".toList, ['\n'], []⟩ rfl rfl

/-- C6. -/
theorem bump_no_fields_noop {buf : List Char}
    (h1 : findRev buf = none) (h2 : findVer nameDIST buf = none)
    (h3 : findVer namePVER buf = none) :
    bumpPortrevision buf = .ok buf ∧ processPort buf = (.ok (), buf) := by
  have hb : bumpPortrevision buf = .ok buf := by
    simp [bumpPortrevision, h1, h2, h3]
  refine ⟨hb, ?_⟩
  simp [processPort, hb]

theorem bump_no_fields_noop_witness :
    bumpPortrevision ("# nothing here\n".toList) = .ok ("# nothing here\n".toList) ∧
      processPort ("# nothing here\n".toList) = (.ok (), "# nothing here\n".toList) :=
  bump_no_fields_noop rfl rfl rfl

/-- C8. -/
theorem processPort_no_truncate {file buf : List Char}
    (h : bumpPortrevision file = .ok buf) (hle : buf.length ≤ file.length) :
    processPort file = (.ok (), buf ++ file.drop buf.length) ∧
      (buf ++ file.drop buf.length).drop buf.length = file.drop buf.length ∧
      (buf ++ file.drop buf.length).length = file.length := by
  refine ⟨by simp only [processPort, h], List.drop_left buf _, ?_⟩
  simp only [List.length_append, List.length_drop]
  omega

theorem processPort_no_truncate_witness :
    processPort ("PORTREVISION=000\n".toList) = (.ok (), "PORTREVISION=1\n0\n".toList) := by
  have h := @processPort_no_truncate ("PORTREVISION=000\n".toList)
    ("PORTREVISION=1\n".toList) rfl (by decide)
  exact h.1

/-- C4 (amended). -/
theorem bump_portversion_no_validation :
    bumpPortrevision ("PORTVERSION=\tabc\n".toList) =
      .ok ("PORTVERSION=\tabc\nPORTREVISION=\t1\n".toList) := rfl

/-- C4 counterexample. -/
theorem bump_portversion_unchanged_counterexample :
    bumpPortrevision ("PORTVERSION=\tabc\n".toList) =
        .ok ("PORTVERSION=\tabc\nPORTREVISION=\t1\n".toList) ∧
      ("PORTVERSION=\tabc\nPORTREVISION=\t1\n".toList : List Char) ≠
        "PORTVERSION=\tabc\n".toList :=
  ⟨rfl, by decide⟩

/-- C3 counterexample. -/
theorem bump_insertion_position_counterexample :
    bumpPortrevision ("DISTVERSION=\t1.2.3\n".toList) =
        .ok ("DISTVERSION=\t1.2.3\nPORTREVISION=\t1\n".toList) ∧
      ("DISTVERSION=\t1.2.3\nPORTREVISION=\t1\n".toList : List Char) ≠
        "PORTREVISION=\t1\nDISTVERSION=\t1.2.3\n".toList :=
  ⟨rfl, by decide⟩

/-- C3 (amended). -/
theorem bump_inserts_after_version_line {buf : List Char} {vm : VerM}
    (h0 : findRev buf = none)
    (hc : (findVer nameDIST buf = some vm ∧ findVerNL nameDIST vm.rest = none) ∨
      (findVer nameDIST buf = none ∧ findVer namePVER buf = some vm ∧
        findVerNL namePVER vm.rest = none)) :
    buf = vm.pre ++ vm.g1 ++ vm.rest ∧
      bumpPortrevision buf =
        .ok (vm.pre ++ vm.g1 ++ ("PORTREVISION=\t1\n".toList ++ vm.rest)) := by
  have hrev1 : ("PORTREVISION=\t1\n".toList : List Char) = nameREV ++ ['=', '\t', '1', '\n'] := rfl
  rcases hc with ⟨hd, hone⟩ | ⟨hnd, hp, hone⟩
  · obtain ⟨hseq, _⟩ := findVer_decomp hd
    refine ⟨hseq, ?_⟩
    simp only [bumpPortrevision, h0, hd, Option.isSome_some, if_true]
    rw [verRepAll_single hd hone, expand_rev1Tmpl, hrev1]
    simp
  · obtain ⟨hseq, _⟩ := findVer_decomp hp
    refine ⟨hseq, ?_⟩
    simp only [bumpPortrevision, h0, hnd, hp, Option.isSome_none, Option.isSome_some,
      Bool.false_eq_true, if_false, if_true]
    rw [verRepAll_single hp hone, expand_rev1Tmpl, hrev1]
    simp

theorem bump_inserts_after_version_line_witness :
    "DISTVERSION=\t1.2.3\n".toList =
        [] ++ "DISTVERSION=\t1.2.3\n".toList ++ [] ∧
      bumpPortrevision ("DISTVERSION=\t1.2.3\n".toList) =
        .ok ([] ++ "DISTVERSION=\t1.2.3\n".toList ++ ("PORTREVISION=\t1\n".toList ++ [])) :=
  @bump_inserts_after_version_line ("DISTVERSION=\t1.2.3\n".toList)
    ⟨[], "DISTVERSION=\t1.2.3\n".toList, []⟩ rfl (Or.inl ⟨rfl, rfl⟩)
theorem afterLastNL_sub {l : List Char} {c : Char} (h : c ∈ afterLastNL l) : c ∈ l := by
  unfold afterLastNL at h
  rw [List.mem_reverse] at h
  have := List.Sublist.subset (List.takeWhile_sublist notNL) h
  exact List.mem_reverse.mp this

theorem mem_takeWhile_stop {p : Char → Bool} {b c : Char} {v : List Char}
    (hb : p b = false) : ∀ u, c ∈ (u ++ b :: v).takeWhile p → c ∈ u := by
  intro u
  induction u with
  | nil =>
    intro h
    rw [List.nil_append, List.takeWhile_cons, hb] at h
    simp at h
  | cons a u ih =>
    intro h
    rw [List.cons_append, List.takeWhile_cons] at h
    cases hpa : p a with
    | false => rw [hpa] at h; simp at h
    | true =>
      rw [hpa, if_pos rfl] at h
      rcases List.mem_cons.mp h with h | h
      · exact h ▸ List.mem_cons_self a u
      · exact List.mem_cons_of_mem a (ih h)

theorem afterLastNL_append_wsp {x y : List Char} (hy : allWsp y) :
    ∀ c ∈ afterLastNL (x ++ '\n' :: y), wsp c = true := by
  intro c hc
  unfold afterLastNL at hc
  rw [List.mem_reverse] at hc
  have hrw : (x ++ '\n' :: y).reverse = y.reverse ++ '\n' :: x.reverse := by
    simp
  rw [hrw] at hc
  have := mem_takeWhile_stop (by decide) y.reverse hc
  exact hy c (List.mem_reverse.mp this)

theorem afterLastNL_allWsp {l : List Char} (hl : allWsp l) :
    ∀ c ∈ afterLastNL l, wsp c = true :=
  fun c hc => hl c (afterLastNL_sub hc)

theorem findRev_occurrence {buf : List Char} {m : RevM} (h : findRev buf = some m) :
    ∃ a t, buf = a ++ nameREV ++ t ∧ ∀ c ∈ afterLastNL a, wsp c = true := by
  obtain ⟨hseq, hshape⟩ := findRev_decomp h
  rcases hshape with ⟨hpre, sp1, sp2, t, sp3, hg1, hw1, _, _, _⟩ |
    ⟨sp1, sp2, t, sp3, hg1, hw1, _, _, _⟩
  · refine ⟨sp1, sp2 ++ t ++ sp3 ++ m.g2 ++ m.g3 ++ m.rest, ?_, afterLastNL_allWsp hw1⟩
    rw [hseq, hpre, hg1]; simp
  · refine ⟨m.pre ++ '\n' :: sp1, sp2 ++ t ++ sp3 ++ m.g2 ++ m.g3 ++ m.rest, ?_,
      afterLastNL_append_wsp hw1⟩
    rw [hseq, hg1]; simp

theorem findVer_occurrence {name buf : List Char} {m : VerM}
    (h : findVer name buf = some m) :
    ∃ a t, buf = a ++ name ++ t ∧ ∀ c ∈ afterLastNL a, wsp c = true := by
  obtain ⟨hseq, hshape⟩ := findVer_decomp h
  rcases hshape with ⟨hpre, sp1, t, hg1, hw1⟩ | ⟨sp1, t, hg1, hw1⟩
  · refine ⟨sp1, t ++ m.rest, ?_, afterLastNL_allWsp hw1⟩
    rw [hseq, hpre, hg1]; simp
  · refine ⟨m.pre ++ '\n' :: sp1, t ++ m.rest, ?_, afterLastNL_append_wsp hw1⟩
    rw [hseq, hg1]; simp
/-- No anchored occurrence of `name` means no match of the corresponding
pattern: helper refuting a match under `lineAnchoredFree`. -/
theorem lineAnchoredFree_no_occurrence {name buf a t : List Char} (hne : name ≠ [])
    (hfree : lineAnchoredFree name buf) (hsplit : buf = a ++ name ++ t)
    (hwsp : ∀ c ∈ afterLastNL a, wsp c = true) : False := by
  have hi : a.length < buf.length := by
    rw [hsplit]
    simp only [List.length_append]
    have := List.length_pos.mpr hne
    omega
  have htake : buf.take a.length = a := by
    rw [hsplit, List.append_assoc]
    exact List.take_left a _
  have hdroptake : (buf.drop a.length).take name.length = name := by
    rw [hsplit, List.append_assoc, List.drop_left a _]
    exact List.take_left name t
  obtain ⟨c, hc, hcret⟩ := hfree a.length hi hdroptake
  rw [htake] at hc
  rw [hwsp c hc] at hcret
  exact absurd hcret (by decide)

/-- Shared no-op lemma: with no match of any pattern the transform and the
file rewrite do nothing. -/
theorem bump_noop_of_none {buf : List Char}
    (h1 : findRev buf = none) (h2 : findVer nameDIST buf = none)
    (h3 : findVer namePVER buf = none) :
    bumpPortrevision buf = .ok buf ∧ processPort buf = (.ok (), buf) := by
  have hb : bumpPortrevision buf = .ok buf := by
    simp [bumpPortrevision, h1, h2, h3]
  refine ⟨hb, ?_⟩
  simp [processPort, hb]

/-- C10. -/
theorem bump_unanchored_fields_noop {buf : List Char}
    (hrev : lineAnchoredFree nameREV buf) (hdist : lineAnchoredFree nameDIST buf)
    (hpver : lineAnchoredFree namePVER buf) :
    bumpPortrevision buf = .ok buf := by
  have h1 : findRev buf = none := by
    cases hf : findRev buf with
    | none => rfl
    | some m =>
      obtain ⟨a, t, hsplit, hwsp⟩ := findRev_occurrence hf
      exact (lineAnchoredFree_no_occurrence (by decide) hrev hsplit hwsp).elim
  have h2 : findVer nameDIST buf = none := by
    cases hf : findVer nameDIST buf with
    | none => rfl
    | some m =>
      obtain ⟨a, t, hsplit, hwsp⟩ := findVer_occurrence hf
      exact (lineAnchoredFree_no_occurrence (by decide) hdist hsplit hwsp).elim
  have h3 : findVer namePVER buf = none := by
    cases hf : findVer namePVER buf with
    | none => rfl
    | some m =>
      obtain ⟨a, t, hsplit, hwsp⟩ := findVer_occurrence hf
      exact (lineAnchoredFree_no_occurrence (by decide) hpver hsplit hwsp).elim
  exact (bump_noop_of_none h1 h2 h3).1

theorem bump_unanchored_fields_noop_witness :
    bumpPortrevision ("#PORTREVISION=3\n".toList) = .ok ("#PORTREVISION=3\n".toList) :=
  bump_unanchored_fields_noop (by decide) (by decide) (by decide)
theorem stripLit_self {name r : List Char} : stripLit name (name ++ r) = some r := by
  induction name with
  | nil => rfl
  | cons c cs ih => simp [stripLit, ih]

/-- A buffer whose first character is neither whitespace nor `P` cannot match
the `portrevisionRe` body at offset 0. -/
theorem matchRevCore_head_ne {c : Char} {s : List Char} (hwc : wsp c = false)
    (hne : c ≠ 'P') : matchRevCore (c :: s) = none := by
  unfold matchRevCore matchAssign
  rw [List.dropWhile_cons, if_neg (by simp [hwc])]
  rw [show nameREV = 'P' :: ['O', 'R', 'T', 'R', 'E', 'V', 'I', 'S', 'I', 'O', 'N'] from rfl]
  simp [stripLit, if_neg (Ne.symm hne)]

/-- `\s*NAME\s*\??=` matches exactly the literal `NAME=` at the head of the
buffer when `NAME` starts with a non-whitespace character. -/
theorem matchAssign_self {p : Char} {ps r : List Char} (hwp : wsp p = false) :
    matchAssign (p :: ps) ((p :: ps) ++ '=' :: r) = some ((p :: ps) ++ ['='], r) := by
  unfold matchAssign
  rw [List.cons_append, List.dropWhile_cons, if_neg (by simp [hwp]), ← List.cons_append,
    stripLit_self]
  simp [List.dropWhile_cons, List.takeWhile_cons, hwp, show wsp '=' = false from by decide]

/-- `distversionRe`'s body matches a bare `NAME=<value>\n` prefix entirely
when the value contains no newline. -/
theorem matchVerCore_line {p : Char} {ps v w : List Char} (hwp : wsp p = false)
    (hv : ∀ c ∈ v, notNL c = true) :
    matchVerCore (p :: ps) ((p :: ps) ++ '=' :: (v ++ '\n' :: w)) =
      some ((p :: ps) ++ '=' :: (v ++ ['\n']), w) := by
  unfold matchVerCore
  rw [show ((p :: ps) ++ '=' :: (v ++ '\n' :: w)) = ((p :: ps) ++ '=' :: (v ++ '\n' :: w))
    from rfl, matchAssign_self hwp]
  have h1 : (v ++ '\n' :: w).dropWhile notNL = '\n' :: w := by
    rw [List.dropWhile_append_of_pos hv, List.dropWhile_cons, if_neg (by decide)]
  have h2 : (v ++ '\n' :: w).takeWhile notNL = v := by
    rw [List.takeWhile_append_of_pos hv, List.takeWhile_cons, if_neg (by decide)]
    simp
  simp [h1, h2]

/-- C7 (amended). -/
theorem bump_roundtrip_distversion_line {v : List Char} (hv : '\n' ∉ v) :
    bumpPortrevision (nameDIST ++ '=' :: (v ++ ['\n'])) =
        .ok (nameDIST ++ '=' :: (v ++ '\n' :: (nameREV ++ ['=', '\t', '1', '\n']))) ∧
      bumpPortrevision (nameDIST ++ '=' :: (v ++ '\n' :: (nameREV ++ ['=', '\t', '1', '\n']))) =
        .ok (nameDIST ++ '=' :: (v ++ '\n' :: (nameREV ++ ['=', '\t', '2', '\n']))) := by
  have hvNL : ∀ c ∈ v, notNL c = true := by
    intro c hc
    simp only [notNL, bne_iff_ne, ne_eq]
    exact fun he => hv (he ▸ hc)
  have hnoNLa : ∀ c ∈ nameDIST ++ '=' :: v, c ≠ '\n' := by
    intro c hc
    rcases List.mem_append.mp hc with h | h
    · fin_cases h <;> decide
    · rcases List.mem_cons.mp h with h | h
      · subst h; decide
      · exact fun he => hv (he ▸ h)
  -- first application
  have hcore1 : matchRevCore (nameDIST ++ '=' :: (v ++ ['\n'])) = none := by
    rw [show nameDIST ++ '=' :: (v ++ ['\n']) =
      'D' :: (['I', 'S', 'T', 'V', 'E', 'R', 'S', 'I', 'O', 'N'] ++ '=' :: (v ++ ['\n']))
      from rfl]
    exact matchRevCore_head_ne (by decide) (by decide)
  have hsplit1 : nameDIST ++ '=' :: (v ++ ['\n']) = (nameDIST ++ '=' :: v) ++ ['\n'] := by
    simp
  have hnl1 : findRevNL (nameDIST ++ '=' :: (v ++ ['\n'])) = none := by
    rw [hsplit1, findRevNL_append_noNL hnoNLa]
    rfl
  have hfr1 : findRev (nameDIST ++ '=' :: (v ++ ['\n'])) = none := by
    simp only [findRev, hcore1, hnl1]
  have hver1 : matchVerCore nameDIST (nameDIST ++ '=' :: (v ++ ['\n'])) =
      some (nameDIST ++ '=' :: (v ++ ['\n']), []) := by
    exact @matchVerCore_line 'D' ['I', 'S', 'T', 'V', 'E', 'R', 'S', 'I', 'O', 'N'] v []
      (by decide) hvNL
  have hfd1 : findVer nameDIST (nameDIST ++ '=' :: (v ++ ['\n'])) =
      some ⟨[], nameDIST ++ '=' :: (v ++ ['\n']), []⟩ := by
    simp only [findVer, hver1]
  have happ1 : bumpPortrevision (nameDIST ++ '=' :: (v ++ ['\n'])) =
      .ok (nameDIST ++ '=' :: (v ++ '\n' :: (nameREV ++ ['=', '\t', '1', '\n']))) := by
    simp only [bumpPortrevision, hfr1, hfd1, Option.isSome_some, if_true]
    rw [verRepAll_single hfd1 (by rfl), expand_rev1Tmpl]
    simp
  -- second application
  have hcore2 : matchRevCore
      (nameDIST ++ '=' :: (v ++ '\n' :: (nameREV ++ ['=', '\t', '1', '\n']))) = none := by
    rw [show nameDIST ++ '=' :: (v ++ '\n' :: (nameREV ++ ['=', '\t', '1', '\n'])) =
      'D' :: (['I', 'S', 'T', 'V', 'E', 'R', 'S', 'I', 'O', 'N'] ++
        '=' :: (v ++ '\n' :: (nameREV ++ ['=', '\t', '1', '\n']))) from rfl]
    exact matchRevCore_head_ne (by decide) (by decide)
  have hsplit2 : nameDIST ++ '=' :: (v ++ '\n' :: (nameREV ++ ['=', '\t', '1', '\n'])) =
      (nameDIST ++ '=' :: v) ++ ('\n' :: (nameREV ++ ['=', '\t', '1', '\n'])) := by
    simp
  have hnlR1 : findRevNL ('\n' :: (nameREV ++ ['=', '\t', '1', '\n'])) =
      some ⟨[], '\n' :: (nameREV ++ ['=', '\t']), ['1'], ['\n'], []⟩ := rfl
  have hfr2 : findRev (nameDIST ++ '=' :: (v ++ '\n' :: (nameREV ++ ['=', '\t', '1', '\n']))) =
      some ⟨nameDIST ++ '=' :: v, '\n' :: (nameREV ++ ['=', '\t']), ['1'], ['\n'], []⟩ := by
    simp only [findRev, hcore2]
    rw [hsplit2, findRevNL_append_noNL hnoNLa, hnlR1]
    simp
  have hexp : expand
      (revGroups ⟨nameDIST ++ '=' :: v, '\n' :: (nameREV ++ ['=', '\t']), ['1'], ['\n'], []⟩)
      ('\n' :: (nameREV ++ ['=', '\t']) ++ toDecimal ((1 + 1) % uint64Mod) ++ ['\n']) =
      '\n' :: (nameREV ++ ['=', '\t']) ++ ['2'] ++ ['\n'] := rfl
  have happ2 : bumpPortrevision
      (nameDIST ++ '=' :: (v ++ '\n' :: (nameREV ++ ['=', '\t', '1', '\n']))) =
      .ok (nameDIST ++ '=' :: (v ++ '\n' :: (nameREV ++ ['=', '\t', '2', '\n']))) := by
    simp only [bumpPortrevision, hfr2]
    rw [show parseUint (RevM.g2 ⟨nameDIST ++ '=' :: v, '\n' :: (nameREV ++ ['=', '\t']),
      ['1'], ['\n'], []⟩) = Except.ok 1 from rfl]
    simp only []
    rw [revRepAll_single hfr2 (by rfl)]
    rw [show (RevM.g1 ⟨nameDIST ++ '=' :: v, '\n' :: (nameREV ++ ['=', '\t']),
        ['1'], ['\n'], []⟩ ++ toDecimal ((1 + 1) % uint64Mod) ++
        RevM.g3 ⟨nameDIST ++ '=' :: v, '\n' :: (nameREV ++ ['=', '\t']), ['1'], ['\n'], []⟩) =
      ('\n' :: (nameREV ++ ['=', '\t']) ++ toDecimal ((1 + 1) % uint64Mod) ++ ['\n']) from rfl]
    rw [hexp]
    simp
  exact ⟨happ1, happ2⟩

theorem bump_roundtrip_distversion_line_witness :
    bumpPortrevision (nameDIST ++ '=' :: ("1.2.3".toList ++ ['\n'])) =
        .ok (nameDIST ++ '=' :: ("1.2.3".toList ++ '\n' :: (nameREV ++ ['=', '\t', '1', '\n']))) ∧
      bumpPortrevision
          (nameDIST ++ '=' :: ("1.2.3".toList ++ '\n' :: (nameREV ++ ['=', '\t', '1', '\n']))) =
        .ok (nameDIST ++ '=' :: ("1.2.3".toList ++ '\n' :: (nameREV ++ ['=', '\t', '2', '\n']))) :=
  bump_roundtrip_distversion_line (by decide)

/-- C7 counterexample. -/
theorem bump_roundtrip_counterexample :
    bumpPortrevision ("DISTVERSION=1.2.3".toList) =
        .ok ("DISTVERSION=1.2.3PORTREVISION=\t1\n".toList) ∧
      findRev ("DISTVERSION=1.2.3PORTREVISION=\t1\n".toList) = none ∧
      bumpPortrevision ("DISTVERSION=1.2.3PORTREVISION=\t1\n".toList) =
        .ok ("DISTVERSION=1.2.3PORTREVISION=\t1\nPORTREVISION=\t1\n".toList) :=
  ⟨rfl, rfl, rfl⟩

/-! ### Adequacy of the `buf.length` fuel in `ReplaceAll` -/

theorem findRevNL_rest_length {buf : List Char} {m : RevM} (h : findRevNL buf = some m) :
    m.rest.length < buf.length := by
  obtain ⟨hseq, sp1, sp2, t, sp3, hg1, _, _, _, _⟩ := findRevNL_decomp h
  rw [hseq, hg1]
  simp only [List.length_append, List.length_cons]
  omega

theorem findVerNL_rest_length {name buf : List Char} {m : VerM}
    (h : findVerNL name buf = some m) : m.rest.length < buf.length := by
  obtain ⟨hseq, sp1, t, hg1, _⟩ := findVerNL_decomp h
  rw [hseq, hg1]
  simp only [List.length_append, List.length_cons]
  omega

/-- Any fuel at least `b.length` computes the same replacement, so
`revRepAll`'s fuel choice is sufficient: every match consumes at least one
character of the buffer. -/
theorem revRepCont_fuel {tmpl : List Char} {f1 : Nat} :
    ∀ {b : List Char} {f2 : Nat}, b.length ≤ f1 → b.length ≤ f2 →
      revRepCont tmpl f1 b = revRepCont tmpl f2 b := by
  induction f1 with
  | zero =>
    intro b f2 h1 h2
    have hb : b = [] := List.length_eq_zero.mp (Nat.le_zero.mp h1)
    subst hb
    cases f2 <;> rfl
  | succ k ih =>
    intro b f2 h1 h2
    cases hfb : findRevNL b with
    | none => rw [revRepCont_none hfb, revRepCont_none hfb]
    | some m =>
      have hlt := findRevNL_rest_length hfb
      cases f2 with
      | zero =>
        have hb : b = [] := List.length_eq_zero.mp (Nat.le_zero.mp h2)
        subst hb
        simp [findRevNL] at hfb
      | succ l =>
        simp only [revRepCont, hfb]
        have hrec := @ih m.rest l (by omega) (by omega)
        rw [hrec]

/-- Fuel-independence for the version-pattern replacement. -/
theorem verRepCont_fuel {name tmpl : List Char} {f1 : Nat} :
    ∀ {b : List Char} {f2 : Nat}, b.length ≤ f1 → b.length ≤ f2 →
      verRepCont name tmpl f1 b = verRepCont name tmpl f2 b := by
  induction f1 with
  | zero =>
    intro b f2 h1 h2
    have hb : b = [] := List.length_eq_zero.mp (Nat.le_zero.mp h1)
    subst hb
    cases f2 <;> rfl
  | succ k ih =>
    intro b f2 h1 h2
    cases hfb : findVerNL name b with
    | none => rw [verRepCont_none hfb, verRepCont_none hfb]
    | some m =>
      have hlt := findVerNL_rest_length hfb
      cases f2 with
      | zero =>
        have hb : b = [] := List.length_eq_zero.mp (Nat.le_zero.mp h2)
        subst hb
        simp [findVerNL] at hfb
      | succ l =>
        simp only [verRepCont, hfb]
        have hrec := @ih m.rest l (by omega) (by omega)
        rw [hrec]
